import Mathlib

/-!
AVL tree (`src/main.cpp`): shallow embedding and verification

A `Node*` of the program is embedded as a value of the inductive type `Node`:
`nullptr` is `Node.null`, and a pointer to a live node is `Node.mk val left right height`.
The program owns every node through exactly one pointer, so in-place mutation of a
subtree is embedded as building the updated subtree.

Dereferencing a null pointer is undefined behaviour in the program; every function that
dereferences its argument returns `Option`, `none` standing for such a dereference
(or, in `main`, for an exception leaving the program).

Values and cached heights are `int` in the program.  Values are only compared, never
computed with, and are embedded as `Int`.  Cached heights are embedded as `Int`; the only
arithmetic on them is `+ 1` and one subtraction of two heights.
-/

namespace AVL

/-- The `struct Node`; `null` is the null pointer. -/
inductive Node where
  | null : Node
  | mk (val : Int) (left : Node) (right : Node) (height : Int) : Node
  deriving DecidableEq, Repr

/-- The constructor `Node(int val)`: no children, height 1. -/
def newNode (val : Int) : Node := .mk val .null .null 1

/-- Function `getHeight`: 0 for the null pointer, the cached height otherwise. -/
def getHeight : Node → Int
  | .null => 0
  | .mk _ _ _ h => h

/-- Function `updateHeight`: sets the cached height from the cached heights of the children. -/
def updateHeight : Node → Option Node
  | .null => none
  | .mk v l r _ =>
    let left := getHeight l
    let right := getHeight r
    if left > right then some (.mk v l r (left + 1)) else some (.mk v l r (right + 1))

/-- Function `rotateLeft`: the right child becomes the root of the subtree. -/
def rotateLeft : Node → Option Node
  | .mk v l (.mk rv rl rr rh) h =>
    match updateHeight (.mk v l rl h) with
    | none => none
    | some node => updateHeight (.mk rv node rr rh)
  | _ => none

/-- Function `rotateRight`: the left child becomes the root of the subtree. -/
def rotateRight : Node → Option Node
  | .mk v (.mk lv ll lr lh) r h =>
    match updateHeight (.mk v lr r h) with
    | none => none
    | some node => updateHeight (.mk lv ll node lh)
  | _ => none

/-- Function `getBalanceFactor`: 0 for the null pointer, else cached height of left minus right. -/
def getBalanceFactor : Node → Int
  | .null => 0
  | .mk _ l r _ => getHeight l - getHeight r

/-- Function `rebalance`: dispatch on the balance factor to one of the four rotation cases. -/
def rebalance : Node → Option Node
  | .null => some .null
  | .mk v l r h =>
    let bf := getBalanceFactor (.mk v l r h)
    if bf > 1 then
      if getBalanceFactor l ≥ 0 then
        rotateRight (.mk v l r h)
      else
        match rotateLeft l with
        | none => none
        | some l1 => rotateRight (.mk v l1 r h)
    else if bf < -1 then
      if getBalanceFactor r ≤ 0 then
        rotateLeft (.mk v l r h)
      else
        match rotateRight r with
        | none => none
        | some r1 => rotateLeft (.mk v l r1 h)
    else some (.mk v l r h)

/-- Function `findMaxNode`: the rightmost node of the subtree (null for the null pointer). -/
def findMaxNode : Node → Node
  | .null => .null
  | .mk v l .null h => .mk v l .null h
  | .mk _ _ (.mk rv rl rr rh) _ => findMaxNode (.mk rv rl rr rh)

/-- The read `node->val`. -/
def getVal : Node → Option Int
  | .null => none
  | .mk v _ _ _ => some v

/-- Function `addNode`: recursive insertion, with height update and rebalance on the unwind. -/
def addNode (val : Int) : Node → Option Node
  | .null => some (newNode val)
  | .mk v l r h =>
    if val > v then
      match addNode val r with
      | none => none
      | some r1 =>
        match updateHeight (.mk v l r1 h) with
        | none => none
        | some root => rebalance root
    else if val < v then
      match addNode val l with
      | none => none
      | some l1 =>
        match updateHeight (.mk v l1 r h) with
        | none => none
        | some root => rebalance root
    else some (.mk v l r h)

/-- Function `deleteNode`: recursive deletion, with height update and rebalance on the unwind. -/
def deleteNode (val : Int) : Node → Option Node
  | .null => some .null
  | .mk v l r h =>
    if val > v then
      match deleteNode val r with
      | none => none
      | some r1 =>
        match updateHeight (.mk v l r1 h) with
        | none => none
        | some root => rebalance root
    else if val < v then
      match deleteNode val l with
      | none => none
      | some l1 =>
        match updateHeight (.mk v l1 r h) with
        | none => none
        | some root => rebalance root
    else if l = .null ∧ r = .null then some .null
    else if l ≠ .null ∧ r = .null then some l
    else if l = .null ∧ r ≠ .null then some r
    else
      match getVal (findMaxNode l) with
      | none => none
      | some m =>
        match deleteNode m l with
        | none => none
        | some l1 =>
          match updateHeight (.mk m l1 r h) with
          | none => none
          | some root => rebalance root

/-- Function `traversePre`: the values in the order printed (root, left, right). -/
def traversePre : Node → List Int
  | .null => []
  | .mk v l r _ => v :: (traversePre l ++ traversePre r)

/-- Function `traversePost`: the values in the order printed (left, right, root). -/
def traversePost : Node → List Int
  | .null => []
  | .mk v l r _ => traversePost l ++ traversePost r ++ [v]

/-- Function `traverseIn`: the values in the order printed (left, root, right). -/
def traverseIn : Node → List Int
  | .null => []
  | .mk v l r _ => traverseIn l ++ v :: traverseIn r

/-- The text printed by a traversal: each value followed by one blank
(`cout << root->val << " "`). -/
def render (vals : List Int) : String :=
  String.join (vals.map (fun v => toString v ++ " "))

/-- Library predicate `std::isspace` in the default locale: blank, and the characters 9 to 13. -/
def isSpace (c : Char) : Bool :=
  c.toNat = 32 || (9 ≤ c.toNat && c.toNat ≤ 13)

/-- Splitting of a character sequence into maximal runs of non-blank characters, as the
repeated `ss >> op` does; `cur` holds the run being read, last character first. -/
def splitTokens : List Char → List Char → List String
  | [], cur => if cur = [] then [] else [String.mk cur.reverse]
  | c :: cs, cur =>
    if isSpace c then
      if cur = [] then splitTokens cs [] else String.mk cur.reverse :: splitTokens cs []
    else splitTokens cs (c :: cur)

/-- The tokens of the first line of the input (`getline` followed by `ss >> op`). -/
def tokenize (input : String) : List String :=
  splitTokens (input.data.takeWhile (fun c => c.toNat ≠ 10)) []

/-- The library function `std::stoi` in base 10 on the characters after the command
letter: leading blanks are skipped, an optional sign and the longest run of digits are
read and the rest is ignored; `none` stands for the exception thrown when there is no
digit (`invalid_argument`) or when the number does not fit an `int` (`out_of_range`). -/
def stoi (s : List Char) : Option Int :=
  let body := s.dropWhile isSpace
  let signed : Bool × List Char :=
    match body with
    | '-' :: r => (true, r)
    | '+' :: r => (false, r)
    | r => (false, r)
  let digits := signed.2.takeWhile Char.isDigit
  if digits = [] then none
  else
    let n : Nat := digits.foldl (fun a c => 10 * a + (c.toNat - 48)) 0
    let v : Int := if signed.1 then -(n : Int) else (n : Int)
    if -2147483648 ≤ v ∧ v ≤ 2147483647 then some v else none

/-- The command loop of `main`: the tokens still to read, the root and the text printed
so far.  The result is the root and the text printed when the loop is left (by `break`
or at the end of the tokens); `none` stands for abnormal termination. -/
def mainLoop : List String → Node → String → Option (Node × String)
  | [], root, out => some (root, out)
  | op :: rest, root, out =>
    match op.data with
    | 'A' :: sub =>
      match stoi sub with
      | none => none
      | some val =>
        match addNode val root with
        | none => none
        | some root1 => mainLoop rest root1 out
    | 'D' :: sub =>
      match stoi sub with
      | none => none
      | some val =>
        match deleteNode val root with
        | none => none
        | some root1 => mainLoop rest root1 out
    | _ =>
      if root = .null then some (root, out ++ "EMPTY")
      else if op = "PRE" then mainLoop rest root (out ++ render (traversePre root))
      else if op = "POST" then mainLoop rest root (out ++ render (traversePost root))
      else if op = "IN" then mainLoop rest root (out ++ render (traverseIn root))
      else mainLoop rest root out

/-- The standard output of `main` on a list of tokens: what the command loop printed,
then the final `endl`. -/
def mainTokens (toks : List String) : Option String :=
  match mainLoop toks .null "" with
  | none => none
  | some res => some (res.2 ++ "\n")

/-- The standard output of `main` on an input. -/
def main (input : String) : Option String := mainTokens (tokenize input)

/-- The calls `root = addNode(val, root)` for the values of a list, in order. -/
def insertAll : List Int → Node → Option Node
  | [], root => some root
  | v :: vs, root =>
    match addNode v root with
    | none => none
    | some root1 => insertAll vs root1

/-- The calls `root = deleteNode(val, root)` for the values of a list, in order. -/
def deleteAll : List Int → Node → Option Node
  | [], root => some root
  | v :: vs, root =>
    match deleteNode v root with
    | none => none
    | some root1 => deleteAll vs root1

/-- A mutation command: insert a value (`A<int>`) or delete a value (`D<int>`). -/
inductive Op where
  | add (v : Int) : Op
  | del (v : Int) : Op
  deriving DecidableEq, Repr

/-- The mutation calls of a sequence of commands, in order. -/
def applyOps : List Op → Node → Option Node
  | [], root => some root
  | .add v :: ops, root =>
    match addNode v root with
    | none => none
    | some root1 => applyOps ops root1
  | .del v :: ops, root =>
    match deleteNode v root with
    | none => none
    | some root1 => applyOps ops root1

/-- The reference set of the specification: the same commands applied as set insertion
and set erasure, starting from the empty set. -/
def refSet : List Op → Finset Int → Finset Int
  | [], s => s
  | .add v :: ops, s => refSet ops (insert v s)
  | .del v :: ops, s => refSet ops (s.erase v)

/-- A token whose first character is `A` or `D`: the two mutation branches of the
command loop. -/
def isMutation (op : String) : Bool :=
  match op.data with
  | 'A' :: _ => true
  | 'D' :: _ => true
  | _ => false

/-- The tree built by `A5 A3 A8 A1 A4`, used as a concrete input. -/
def sampleTree : Node :=
  .mk 5 (.mk 3 (newNode 1) (newNode 4) 2) (newNode 8) 3

/-- Number of nodes of the tree. -/
def size : Node → Nat
  | .null => 0
  | .mk _ l r _ => size l + size r + 1

/-- True height of the subtree: 0 for the empty tree, else 1 + the larger child height. -/
def height : Node → Nat
  | .null => 0
  | .mk _ l r _ => 1 + max (height l) (height r)

/-- BST ordering: at every node, all values of the left subtree are smaller than the
node's value and all values of the right subtree are larger. -/
def isBST : Node → Prop
  | .null => True
  | .mk v l r _ =>
    isBST l ∧ isBST r ∧ (∀ x ∈ traverseIn l, x < v) ∧ (∀ x ∈ traverseIn r, v < x)

/-- AVL balance: at every node the true heights of the children differ by at most 1. -/
def isBalanced : Node → Prop
  | .null => True
  | .mk _ l r _ =>
    isBalanced l ∧ isBalanced r ∧ height l ≤ height r + 1 ∧ height r ≤ height l + 1

/-- Cached-height correctness: every node's cached height is the true height. -/
def heightsCorrect : Node → Prop
  | .null => True
  | .mk v l r h =>
    heightsCorrect l ∧ heightsCorrect r ∧ h = (height (.mk v l r h) : Int)

/-- The three invariants of the data model together. -/
def Valid (t : Node) : Prop := isBST t ∧ isBalanced t ∧ heightsCorrect t

instance decIsBST : (t : Node) → Decidable (isBST t)
  | .null => isTrue trivial
  | .mk v l r _ =>
    have := decIsBST l
    have := decIsBST r
    inferInstanceAs (Decidable (isBST l ∧ isBST r ∧
      (∀ x ∈ traverseIn l, x < v) ∧ (∀ x ∈ traverseIn r, v < x)))

instance decIsBalanced : (t : Node) → Decidable (isBalanced t)
  | .null => isTrue trivial
  | .mk _ l r _ =>
    have := decIsBalanced l
    have := decIsBalanced r
    inferInstanceAs (Decidable (isBalanced l ∧ isBalanced r ∧
      height l ≤ height r + 1 ∧ height r ≤ height l + 1))

instance decHeightsCorrect : (t : Node) → Decidable (heightsCorrect t)
  | .null => isTrue trivial
  | .mk v l r h =>
    have := decHeightsCorrect l
    have := decHeightsCorrect r
    inferInstanceAs (Decidable (heightsCorrect l ∧ heightsCorrect r ∧
      h = (height (.mk v l r h) : Int)))

instance decValid (t : Node) : Decidable (Valid t) :=
  inferInstanceAs (Decidable (isBST t ∧ isBalanced t ∧ heightsCorrect t))

/-- Function `deleteTree`: the nodes released by `delete`, in the order of release.  A
node is released only in the branch for a node without children; in the other branch the
two subtrees are torn down and the function returns. -/
def deleteTree : Node → List Node
  | .null => []
  | .mk v l r h =>
    if l = .null ∧ r = .null then [.mk v l r h]
    else deleteTree l ++ deleteTree r

/-- The nodes of a tree, every node once, children before their parent: what a teardown
that releases every node exactly once has to release. -/
def allNodes : Node → List Node
  | .null => []
  | .mk v l r h => allNodes l ++ allNodes r ++ [.mk v l r h]

/-- Number of nested activations of `addNode` for a call on the given tree: one for the
call itself plus those of the recursive call it makes, if any. -/
def addNodeDepth (val : Int) : Node → Nat
  | .null => 1
  | .mk v l r _ =>
    if val > v then 1 + addNodeDepth val r
    else if val < v then 1 + addNodeDepth val l
    else 1

/-- Number of nested activations of `deleteNode` for a call on the given tree: one for
the call itself plus those of the recursive call it makes, if any (in the two-children
case the recursive call deletes the value of `findMaxNode` from the left subtree). -/
def deleteNodeDepth (val : Int) : Node → Nat
  | .null => 1
  | .mk v l r _ =>
    if val > v then 1 + deleteNodeDepth val r
    else if val < v then 1 + deleteNodeDepth val l
    else if l = .null ∧ r = .null then 1
    else if l ≠ .null ∧ r = .null then 1
    else if l = .null ∧ r ≠ .null then 1
    else
      match getVal (findMaxNode l) with
      | none => 1
      | some m => 1 + deleteNodeDepth m l

/-! ## Basic facts about the height bookkeeping and the rotations -/

theorem updateHeight_mk (v : Int) (l r : Node) (h : Int) :
    updateHeight (.mk v l r h) = some (.mk v l r (max (getHeight l) (getHeight r) + 1)) := by
  unfold updateHeight
  simp only []
  split <;> (congr 2; omega)

theorem rotateLeft_mk (v : Int) (l : Node) (rv : Int) (rl rr : Node) (rh h : Int) :
    rotateLeft (.mk v l (.mk rv rl rr rh) h) =
      some (.mk rv (.mk v l rl (max (getHeight l) (getHeight rl) + 1)) rr
        (max (max (getHeight l) (getHeight rl) + 1) (getHeight rr) + 1)) := by
  simp [rotateLeft, updateHeight_mk, getHeight]

theorem rotateRight_mk (v : Int) (lv : Int) (ll lr : Node) (lh : Int) (r : Node) (h : Int) :
    rotateRight (.mk v (.mk lv ll lr lh) r h) =
      some (.mk lv ll (.mk v lr r (max (getHeight lr) (getHeight r) + 1))
        (max (getHeight ll) (max (getHeight lr) (getHeight r) + 1) + 1)) := by
  simp [rotateRight, updateHeight_mk, getHeight]

theorem getHeight_null : getHeight .null = 0 := rfl

theorem getHeight_mk (v : Int) (l r : Node) (h : Int) : getHeight (.mk v l r h) = h := rfl

theorem getBalanceFactor_mk (v : Int) (l r : Node) (h : Int) :
    getBalanceFactor (.mk v l r h) = getHeight l - getHeight r := rfl

theorem getHeight_eq {t : Node} (h : heightsCorrect t) : getHeight t = (height t : Int) := by
  cases t with
  | null => rfl
  | mk v l r c => exact h.2.2

theorem rotateLeft_traverseIn {t t1 : Node} (h : rotateLeft t = some t1) :
    traverseIn t1 = traverseIn t := by
  match t, h with
  | .mk v l (.mk rv rl rr rh) c, h =>
    rw [rotateLeft_mk] at h
    cases h
    simp [traverseIn]

theorem rotateRight_traverseIn {t t1 : Node} (h : rotateRight t = some t1) :
    traverseIn t1 = traverseIn t := by
  match t, h with
  | .mk v (.mk lv ll lr lh) r c, h =>
    rw [rotateRight_mk] at h
    cases h
    simp [traverseIn]

theorem rebalance_traverseIn {t t1 : Node} (h : rebalance t = some t1) :
    traverseIn t1 = traverseIn t := by
  cases t with
  | null => simp [rebalance] at h; subst h; rfl
  | mk v l r c =>
    unfold rebalance at h
    simp only [] at h
    split_ifs at h with h1 h2 h3 h4
    · exact rotateRight_traverseIn h
    · cases hl : rotateLeft l with
      | none => simp [hl] at h
      | some l1 =>
        simp only [hl] at h
        rw [rotateRight_traverseIn h]
        simp [traverseIn, rotateLeft_traverseIn hl]
    · exact rotateLeft_traverseIn h
    · cases hr : rotateRight r with
      | none => simp [hr] at h
      | some r1 =>
        simp only [hr] at h
        rw [rotateLeft_traverseIn h]
        simp [traverseIn, rotateRight_traverseIn hr]
    · cases h; rfl

theorem height_pos_iff (t : Node) : 0 < height t ↔ t ≠ .null := by
  cases t <;> simp [height]

/-- The rebalance step on a node whose subtrees are balanced with correct cached heights,
whose own cached height was just recomputed, and whose children differ in height by at
most 2: it succeeds, returns a balanced tree with correct heights, lowers the height by
at most one, and changes nothing when the node was already balanced. -/
theorem rebalance_heights (v : Int) (l r : Node) (c : Int)
    (hl : heightsCorrect l) (hr : heightsCorrect r)
    (bl : isBalanced l) (br : isBalanced r)
    (h1 : height l ≤ height r + 2) (h2 : height r ≤ height l + 2)
    (hc : c = max (getHeight l) (getHeight r) + 1) :
    ∃ t1, rebalance (.mk v l r c) = some t1 ∧ heightsCorrect t1 ∧ isBalanced t1 ∧
      height t1 ≤ height (.mk v l r c) ∧ height (.mk v l r c) ≤ height t1 + 1 ∧
      (height l ≤ height r + 1 → height r ≤ height l + 1 → t1 = .mk v l r c) := by
  have el := getHeight_eq hl
  have er := getHeight_eq hr
  unfold rebalance
  simp only [getBalanceFactor]
  by_cases hbf : getHeight l - getHeight r > 1
  · rw [if_pos hbf]
    rcases l with _ | ⟨lv, ll, lr, lh⟩
    · simp only [getHeight_null] at hbf; omega
    · obtain ⟨hll, hlr, hlh⟩ := hl
      obtain ⟨bll, blr, b1, b2⟩ := bl
      have ell := getHeight_eq hll
      have elr := getHeight_eq hlr
      simp only [height] at h1 h2 hlh
      simp only [getHeight_mk] at hbf hc
      simp only [getBalanceFactor]
      by_cases hb : getHeight ll - getHeight lr ≥ 0
      · rw [if_pos hb, rotateRight_mk]
        refine ⟨_, rfl, ?_⟩
        simp only [heightsCorrect, isBalanced, height, hll, hlr, hr, bll, blr, br, true_and]
        simp only [ell, elr, er] at hb hbf ⊢
        refine ⟨?_, ?_, ?_, ?_, ?_⟩ <;> omega
      · rw [if_neg hb]
        rcases lr with _ | ⟨rv, rl, rr, rh⟩
        · simp only [getHeight_null] at hb; omega
        · obtain ⟨hrl, hrr, hrh⟩ := hlr
          obtain ⟨brl, brr, b3, b4⟩ := blr
          have erl := getHeight_eq hrl
          have err := getHeight_eq hrr
          simp only [height] at h1 h2 hlh b1 b2 hrh
          simp only [getHeight_mk] at hb
          rw [rotateLeft_mk]
          simp only [rotateRight_mk]
          refine ⟨_, rfl, ?_⟩
          simp only [heightsCorrect, isBalanced, height, hll, hrl, hrr, hr, bll, brl, brr, br,
            true_and, getHeight_mk]
          simp only [ell, erl, err, er] at hb hbf ⊢
          refine ⟨?_, ?_, ?_, ?_, ?_⟩ <;> omega
  · rw [if_neg hbf]
    by_cases hbf2 : getHeight l - getHeight r < -1
    · rw [if_pos hbf2]
      rcases r with _ | ⟨rv, rl, rr, rh⟩
      · simp only [getHeight_null] at hbf2; omega
      · obtain ⟨hrl, hrr, hrh⟩ := hr
        obtain ⟨brl, brr, b1, b2⟩ := br
        have erl := getHeight_eq hrl
        have err := getHeight_eq hrr
        simp only [height] at h1 h2 hrh
        simp only [getHeight_mk] at hbf2 hc
        simp only [getBalanceFactor]
        by_cases hb : getHeight rl - getHeight rr ≤ 0
        · rw [if_pos hb, rotateLeft_mk]
          refine ⟨_, rfl, ?_⟩
          simp only [heightsCorrect, isBalanced, height, hl, hrl, hrr, bl, brl, brr, true_and]
          simp only [el, erl, err] at hb hbf2 ⊢
          refine ⟨?_, ?_, ?_, ?_, ?_⟩ <;> omega
        · rw [if_neg hb]
          rcases rl with _ | ⟨lv, ll, lr, lh⟩
          · simp only [getHeight_null] at hb; omega
          · obtain ⟨hll, hlr, hlh⟩ := hrl
            obtain ⟨bll, blr, b3, b4⟩ := brl
            have ell := getHeight_eq hll
            have elr := getHeight_eq hlr
            simp only [height] at h1 h2 hrh b1 b2 hlh
            simp only [getHeight_mk] at hb
            rw [rotateRight_mk]
            simp only [rotateLeft_mk]
            refine ⟨_, rfl, ?_⟩
            simp only [heightsCorrect, isBalanced, height, hl, hll, hlr, hrr, bl, bll, blr, brr,
              true_and, getHeight_mk]
            simp only [el, ell, elr, err] at hb hbf2 ⊢
            refine ⟨?_, ?_, ?_, ?_, ?_⟩ <;> omega
    · rw [if_neg hbf2]
      refine ⟨_, rfl, ?_⟩
      simp only [heightsCorrect, isBalanced, height, hl, hr, bl, br, true_and]
      simp only [el, er] at hbf hbf2 hc ⊢
      refine ⟨?_, ?_, ?_, ?_, ?_⟩ <;> first | omega | (intro _ _; trivial)

theorem rebalance_balanced (v : Int) (l r : Node) (c : Int)
    (hl : heightsCorrect l) (hr : heightsCorrect r)
    (h1 : height l ≤ height r + 1) (h2 : height r ≤ height l + 1) :
    rebalance (.mk v l r c) = some (.mk v l r c) := by
  have el := getHeight_eq hl
  have er := getHeight_eq hr
  unfold rebalance
  simp only [getBalanceFactor, el, er]
  rw [if_neg (by omega), if_neg (by omega)]

theorem findMaxNode_getVal (t : Node) (h : t ≠ .null) :
    ∃ m, getVal (findMaxNode t) = some m ∧ ∃ init, traverseIn t = init ++ [m] := by
  induction t with
  | null => exact absurd rfl h
  | mk v l r c _ ihr =>
    rcases r with _ | ⟨rv, rl, rr, rh⟩
    · exact ⟨v, rfl, traverseIn l, by simp [traverseIn]⟩
    · obtain ⟨m, hm, init, hi⟩ := ihr (by simp)
      refine ⟨m, by simpa [findMaxNode] using hm, traverseIn l ++ v :: init, ?_⟩
      rw [traverseIn, hi]
      simp

/-- Height part of the insertion contract: on a balanced tree with correct cached heights
`addNode` returns a tree, again balanced with correct cached heights, whose height is the
old height or one more. -/
theorem addNode_heights (val : Int) (t : Node)
    (hc : heightsCorrect t) (hb : isBalanced t) :
    ∃ t1, addNode val t = some t1 ∧ heightsCorrect t1 ∧ isBalanced t1 ∧
      height t ≤ height t1 ∧ height t1 ≤ height t + 1 := by
  induction t with
  | null =>
    refine ⟨newNode val, rfl, ?_⟩
    simp [newNode, heightsCorrect, isBalanced, height]
  | mk v l r c ihl ihr =>
    obtain ⟨hcl, hcr, hch⟩ := hc
    obtain ⟨hbl, hbr, b1, b2⟩ := hb
    unfold addNode
    split_ifs with hgt hlt
    · obtain ⟨r1, e1, c1, bal1, lo, hi⟩ := ihr hcr hbr
      rw [e1]
      simp only [updateHeight_mk]
      obtain ⟨t1, e2, c2, bal2, le1, le2, same⟩ :=
        rebalance_heights v l r1 _ hcl c1 hbl bal1 (by omega) (by omega) rfl
      refine ⟨t1, e2, c2, bal2, ?_⟩
      by_cases hbal : height l ≤ height r1 + 1 ∧ height r1 ≤ height l + 1
      · rw [same hbal.1 hbal.2]
        simp only [height]
        omega
      · simp only [height] at le1 le2 ⊢
        omega
    · obtain ⟨l1, e1, c1, bal1, lo, hi⟩ := ihl hcl hbl
      rw [e1]
      simp only [updateHeight_mk]
      obtain ⟨t1, e2, c2, bal2, le1, le2, same⟩ :=
        rebalance_heights v l1 r _ c1 hcr bal1 hbr (by omega) (by omega) rfl
      refine ⟨t1, e2, c2, bal2, ?_⟩
      by_cases hbal : height l1 ≤ height r + 1 ∧ height r ≤ height l1 + 1
      · rw [same hbal.1 hbal.2]
        simp only [height]
        omega
      · simp only [height] at le1 le2 ⊢
        omega
    · exact ⟨_, rfl, ⟨hcl, hcr, hch⟩, ⟨hbl, hbr, b1, b2⟩, le_refl _, Nat.le_succ _⟩

/-- Height part of the deletion contract: on a balanced tree with correct cached heights
`deleteNode` returns a tree, again balanced with correct cached heights, whose height is
the old height or one less. -/
theorem deleteNode_heights (val : Int) (t : Node)
    (hc : heightsCorrect t) (hb : isBalanced t) :
    ∃ t1, deleteNode val t = some t1 ∧ heightsCorrect t1 ∧ isBalanced t1 ∧
      height t1 ≤ height t ∧ height t ≤ height t1 + 1 := by
  induction t generalizing val with
  | null => exact ⟨.null, rfl, trivial, trivial, le_refl _, Nat.le_succ _⟩
  | mk v l r c ihl ihr =>
    obtain ⟨hcl, hcr, hch⟩ := hc
    obtain ⟨hbl, hbr, b1, b2⟩ := hb
    have step : ∀ (w : Int) (l1 r1 : Node), heightsCorrect l1 → heightsCorrect r1 →
        isBalanced l1 → isBalanced r1 →
        height l1 ≤ height l → height l ≤ height l1 + 1 →
        height r1 ≤ height r → height r ≤ height r1 + 1 →
        (l1 = l ∨ r1 = r) →
        ∃ t1, rebalance (.mk w l1 r1 (max (getHeight l1) (getHeight r1) + 1)) = some t1 ∧
          heightsCorrect t1 ∧ isBalanced t1 ∧
          height t1 ≤ height (.mk v l r c) ∧ height (.mk v l r c) ≤ height t1 + 1 := by
      intro w l1 r1 c1 c2 bal1 bal2 p1 p2 p3 p4 hor
      have hd1 : height l1 ≤ height r1 + 2 := by rcases hor with h | h <;> subst h <;> omega
      have hd2 : height r1 ≤ height l1 + 2 := by rcases hor with h | h <;> subst h <;> omega
      obtain ⟨t1, e2, c3, bal3, le1, le2, same⟩ :=
        rebalance_heights w l1 r1 _ c1 c2 bal1 bal2 hd1 hd2 rfl
      refine ⟨t1, e2, c3, bal3, ?_⟩
      by_cases hbal : height l1 ≤ height r1 + 1 ∧ height r1 ≤ height l1 + 1
      · rw [same hbal.1 hbal.2]
        simp only [height]
        omega
      · simp only [height] at le1 le2 ⊢
        rcases hor with h | h <;> subst h <;> omega
    unfold deleteNode
    split_ifs with hgt hlt h1 h2 h3
    · obtain ⟨r1, e1, c1, bal1, lo, hi⟩ := ihr val hcr hbr
      rw [e1]
      simp only [updateHeight_mk]
      exact step v l r1 hcl c1 hbl bal1 (le_refl _) (Nat.le_succ _) lo hi (Or.inl rfl)
    · obtain ⟨l1, e1, c1, bal1, lo, hi⟩ := ihl val hcl hbl
      rw [e1]
      simp only [updateHeight_mk]
      exact step v l1 r c1 hcr bal1 hbr lo hi (le_refl _) (Nat.le_succ _) (Or.inr rfl)
    · exact ⟨.null, rfl, trivial, trivial, Nat.zero_le _, by
        obtain ⟨rfl, rfl⟩ := h1
        simp [height]⟩
    · obtain ⟨_, rfl⟩ := h2
      refine ⟨l, rfl, hcl, hbl, ?_, ?_⟩ <;> simp only [height] at b1 b2 ⊢ <;> omega
    · obtain ⟨rfl, _⟩ := h3
      refine ⟨r, rfl, hcr, hbr, ?_, ?_⟩ <;> simp only [height] at b1 b2 ⊢ <;> omega
    · have hl0 : l ≠ .null := by
        intro h
        by_cases hr0 : r = .null
        · exact h1 ⟨h, hr0⟩
        · exact h3 ⟨h, hr0⟩
      obtain ⟨m, hm, _⟩ := findMaxNode_getVal l hl0
      rw [hm]
      obtain ⟨l1, e1, c1, bal1, lo, hi⟩ := ihl m hcl hbl
      simp only [e1, updateHeight_mk]
      exact step m l1 r c1 hcr bal1 hbr lo hi (le_refl _) (Nat.le_succ _) (Or.inr rfl)

/-! ## Ordering: the in-order sequence -/

theorem isBST_iff_sorted (t : Node) : isBST t ↔ (traverseIn t).Pairwise (· < ·) := by
  induction t with
  | null => simp [isBST, traverseIn]
  | mk v l r c ihl ihr =>
    simp only [isBST, traverseIn, List.pairwise_append, List.pairwise_cons, ihl, ihr,
      List.mem_cons]
    constructor
    · rintro ⟨h1, h2, h3, h4⟩
      refine ⟨h1, ⟨h4, h2⟩, ?_⟩
      rintro a ha b (rfl | hb)
      · exact h3 a ha
      · exact lt_trans (h3 a ha) (h4 b hb)
    · rintro ⟨h1, ⟨h4, h2⟩, h5⟩
      exact ⟨h1, h2, fun x hx => h5 x hx v (Or.inl rfl), h4⟩

theorem size_eq_length (t : Node) : size t = (traverseIn t).length := by
  induction t with
  | null => rfl
  | mk v l r c ihl ihr => simp [size, traverseIn, ihl, ihr]; omega

theorem rebalance_isBST {t t1 : Node} (h : rebalance t = some t1) (hb : isBST t) :
    isBST t1 := by
  rw [isBST_iff_sorted] at hb ⊢
  rw [rebalance_traverseIn h]
  exact hb

theorem rebalance_size {t t1 : Node} (h : rebalance t = some t1) : size t1 = size t := by
  rw [size_eq_length, size_eq_length, rebalance_traverseIn h]

/-- Ordering part of the insertion contract: a successful `addNode` on a BST gives a BST
holding the old values and the new one, with one more node exactly when the value is new. -/
theorem addNode_order (val : Int) (t t1 : Node) (h : addNode val t = some t1)
    (hb : isBST t) :
    isBST t1 ∧ (∀ x, x ∈ traverseIn t1 ↔ x = val ∨ x ∈ traverseIn t) ∧
      size t1 = if val ∈ traverseIn t then size t else size t + 1 := by
  induction t generalizing t1 with
  | null =>
    simp only [addNode, Option.some.injEq] at h
    subst h
    simp [newNode, isBST, traverseIn, size]
  | mk v l r c ihl ihr =>
    obtain ⟨bl, br, hlt, hgt⟩ := hb
    unfold addNode at h
    split_ifs at h with h1 h2
    · cases e : addNode val r with
      | none => simp [e] at h
      | some r1 =>
        simp only [e, updateHeight_mk] at h
        obtain ⟨b1, m1, s1⟩ := ihr r1 e br
        have hbst : isBST (.mk v l r1 (max (getHeight l) (getHeight r1) + 1)) := by
          refine ⟨bl, b1, hlt, ?_⟩
          intro x hx
          rcases (m1 x).1 hx with rfl | hx
          · exact h1
          · exact hgt x hx
        have hnl : val ∉ traverseIn l := fun hx => absurd (hlt val hx) (by omega)
        refine ⟨rebalance_isBST h hbst, ?_, ?_⟩
        · intro x
          rw [rebalance_traverseIn h]
          simp only [traverseIn, List.mem_append, List.mem_cons, m1]
          tauto
        · rw [rebalance_size h]
          simp only [size, s1, traverseIn, List.mem_append, List.mem_cons, hnl, false_or]
          have hne : val ≠ v := by omega
          simp only [hne, false_or]
          split_ifs <;> omega
    · cases e : addNode val l with
      | none => simp [e] at h
      | some l1 =>
        simp only [e, updateHeight_mk] at h
        obtain ⟨b1, m1, s1⟩ := ihl l1 e bl
        have hbst : isBST (.mk v l1 r (max (getHeight l1) (getHeight r) + 1)) := by
          refine ⟨b1, br, ?_, hgt⟩
          intro x hx
          rcases (m1 x).1 hx with rfl | hx
          · exact h2
          · exact hlt x hx
        have hnr : val ∉ traverseIn r := fun hx => absurd (hgt val hx) (by omega)
        refine ⟨rebalance_isBST h hbst, ?_, ?_⟩
        · intro x
          rw [rebalance_traverseIn h]
          simp only [traverseIn, List.mem_append, List.mem_cons, m1]
          tauto
        · rw [rebalance_size h]
          simp only [size, s1, traverseIn, List.mem_append, List.mem_cons, hnr, or_false]
          have hne : val ≠ v := by omega
          simp only [hne, or_false]
          split_ifs <;> omega
    · have hv : val = v := by omega
      simp only [Option.some.injEq] at h
      subst h hv
      refine ⟨⟨bl, br, hlt, hgt⟩, ?_, ?_⟩
      · intro x
        simp only [traverseIn, List.mem_append, List.mem_cons]
        tauto
      · simp [traverseIn]

/-- Ordering part of the deletion contract: a successful `deleteNode` on a BST returns a
tree whose in-order sequence is the old one with the value erased. -/
theorem deleteNode_order (val : Int) (t t1 : Node) (h : deleteNode val t = some t1)
    (hb : isBST t) :
    traverseIn t1 = (traverseIn t).erase val := by
  induction t generalizing val t1 with
  | null =>
    simp only [deleteNode, Option.some.injEq] at h
    subst h
    simp [traverseIn]
  | mk v l r c ihl ihr =>
    obtain ⟨bl, br, hlt, hgt⟩ := hb
    unfold deleteNode at h
    split_ifs at h with h1 h2 h3 h4 h5
    · cases e : deleteNode val r with
      | none => simp [e] at h
      | some r1 =>
        simp only [e, updateHeight_mk] at h
        have hnl : val ∉ traverseIn l := fun hx => absurd (hlt val hx) (by omega)
        have hne : ¬ v = val := by omega
        rw [rebalance_traverseIn h]
        simp only [traverseIn, ihr val r1 e br]
        rw [List.erase_append_right _ hnl, List.erase_cons]
        simp [hne]
    · cases e : deleteNode val l with
      | none => simp [e] at h
      | some l1 =>
        simp only [e, updateHeight_mk] at h
        have hnr : val ∉ traverseIn r := fun hx => absurd (hgt val hx) (by omega)
        have hne : ¬ v = val := by omega
        rw [rebalance_traverseIn h]
        simp only [traverseIn, ihl val l1 e bl]
        by_cases hm : val ∈ traverseIn l
        · rw [List.erase_append_left _ hm]
        · rw [List.erase_append_right _ hm, List.erase_cons]
          simp [hne, List.erase_of_not_mem hnr, List.erase_of_not_mem hm]
    · have hv : val = v := by omega
      obtain ⟨rfl, rfl⟩ := h3
      simp only [Option.some.injEq] at h
      subst h hv
      simp [traverseIn]
    · have hv : val = v := by omega
      obtain ⟨_, rfl⟩ := h4
      simp only [Option.some.injEq] at h
      subst h hv
      have hnl : val ∉ traverseIn l := fun hx => absurd (hlt val hx) (by omega)
      simp only [traverseIn]
      rw [List.erase_append_right _ hnl]
      simp
    · have hv : val = v := by omega
      obtain ⟨rfl, _⟩ := h5
      simp only [Option.some.injEq] at h
      subst h hv
      simp [traverseIn]
    · have hv : val = v := by omega
      subst hv
      have hl0 : l ≠ .null := by
        intro hn
        by_cases hr0 : r = .null
        · exact h3 ⟨hn, hr0⟩
        · exact h5 ⟨hn, hr0⟩
      obtain ⟨m, hm, init, hi⟩ := findMaxNode_getVal l hl0
      rw [hm] at h
      cases e : deleteNode m l with
      | none => simp [e] at h
      | some l1 =>
        simp only [e, updateHeight_mk] at h
        have hnl : val ∉ traverseIn l := fun hx => absurd (hlt val hx) (by omega)
        have hsorted := (isBST_iff_sorted l).1 bl
        rw [hi, List.pairwise_append] at hsorted
        have hmi : m ∉ init := fun hx =>
          absurd (hsorted.2.2 m hx m (List.mem_singleton_self m)) (lt_irrefl m)
        rw [rebalance_traverseIn h]
        simp only [traverseIn, ihl m l1 e bl]
        rw [List.erase_append_right _ hnl, hi, List.erase_append_right _ hmi]
        simp

theorem deleteNode_isBST (val : Int) (t t1 : Node) (h : deleteNode val t = some t1)
    (hb : isBST t) : isBST t1 := by
  rw [isBST_iff_sorted] at hb ⊢
  rw [deleteNode_order val t t1 h ((isBST_iff_sorted t).2 hb)]
  exact hb.sublist (List.erase_sublist val _)

/-- Inserting a value that is already in a valid tree returns the tree unchanged. -/
theorem addNode_present (val : Int) (t : Node) (hv : Valid t) (hm : val ∈ traverseIn t) :
    addNode val t = some t := by
  induction t with
  | null => simp [traverseIn] at hm
  | mk v l r c ihl ihr =>
    obtain ⟨⟨bl, br, hlt, hgt⟩, ⟨hbl, hbr, b1, b2⟩, ⟨hcl, hcr, hch⟩⟩ := hv
    have el := getHeight_eq hcl
    have er := getHeight_eq hcr
    have hcc : max (getHeight l) (getHeight r) + 1 = c := by
      rw [hch, el, er]
      simp only [height]
      omega
    simp only [traverseIn, List.mem_append, List.mem_cons] at hm
    unfold addNode
    split_ifs with h1 h2
    · have hr : val ∈ traverseIn r := by
        rcases hm with hx | rfl | hx
        · exact absurd (hlt val hx) (by omega)
        · omega
        · exact hx
      rw [ihr ⟨br, hbr, hcr⟩ hr]
      simp only [updateHeight_mk, hcc]
      exact rebalance_balanced v l r c hcl hcr b1 b2
    · have hl : val ∈ traverseIn l := by
        rcases hm with hx | rfl | hx
        · exact hx
        · omega
        · exact absurd (hgt val hx) (by omega)
      rw [ihl ⟨bl, hbl, hcl⟩ hl]
      simp only [updateHeight_mk, hcc]
      exact rebalance_balanced v l r c hcl hcr b1 b2
    · rfl

/-- Deleting a value that is not in a valid tree returns the tree unchanged. -/
theorem deleteNode_absent (val : Int) (t : Node) (hv : Valid t) (hm : val ∉ traverseIn t) :
    deleteNode val t = some t := by
  induction t with
  | null => rfl
  | mk v l r c ihl ihr =>
    obtain ⟨⟨bl, br, hlt, hgt⟩, ⟨hbl, hbr, b1, b2⟩, ⟨hcl, hcr, hch⟩⟩ := hv
    have el := getHeight_eq hcl
    have er := getHeight_eq hcr
    have hcc : max (getHeight l) (getHeight r) + 1 = c := by
      rw [hch, el, er]
      simp only [height]
      omega
    simp only [traverseIn, List.mem_append, List.mem_cons, not_or] at hm
    obtain ⟨hml, hne, hmr⟩ := hm
    unfold deleteNode
    split_ifs with h1 h2
    · rw [ihr ⟨br, hbr, hcr⟩ hmr]
      simp only [updateHeight_mk, hcc]
      exact rebalance_balanced v l r c hcl hcr b1 b2
    · rw [ihl ⟨bl, hbl, hcl⟩ hml]
      simp only [updateHeight_mk, hcc]
      exact rebalance_balanced v l r c hcl hcr b1 b2
    all_goals omega

/-! ## The contracts of `addNode` and `deleteNode` on valid trees -/

theorem addNode_valid (val : Int) (t : Node) (hv : Valid t) :
    ∃ t1, addNode val t = some t1 ∧ Valid t1 := by
  obtain ⟨t1, e, c1, b1, _, _⟩ := addNode_heights val t hv.2.2 hv.2.1
  exact ⟨t1, e, (addNode_order val t t1 e hv.1).1, b1, c1⟩

theorem deleteNode_valid (val : Int) (t : Node) (hv : Valid t) :
    ∃ t1, deleteNode val t = some t1 ∧ Valid t1 := by
  obtain ⟨t1, e, c1, b1, _, _⟩ := deleteNode_heights val t hv.2.2 hv.2.1
  exact ⟨t1, e, deleteNode_isBST val t t1 e hv.1, b1, c1⟩

theorem valid_null : Valid .null := ⟨trivial, trivial, trivial⟩

theorem traverseIn_nodup {t : Node} (hb : isBST t) : (traverseIn t).Nodup :=
  ((isBST_iff_sorted t).1 hb).imp (fun h => ne_of_lt h)

theorem traverseIn_eq_nil {t : Node} (h : traverseIn t = []) : t = .null := by
  cases t with
  | null => rfl
  | mk v l r c => simp [traverseIn] at h

theorem insertAll_valid (xs : List Int) (t : Node) (hv : Valid t) :
    ∃ t1, insertAll xs t = some t1 ∧ Valid t1 ∧
      ∀ x, x ∈ traverseIn t1 ↔ x ∈ xs ∨ x ∈ traverseIn t := by
  induction xs generalizing t with
  | nil => exact ⟨t, rfl, hv, by simp⟩
  | cons v vs ih =>
    obtain ⟨t1, e1, v1⟩ := addNode_valid v t hv
    obtain ⟨t2, e2, v2, m2⟩ := ih t1 v1
    refine ⟨t2, by simp only [insertAll, e1, e2], v2, ?_⟩
    intro x
    rw [m2, (addNode_order v t t1 e1 hv.1).2.1]
    simp only [List.mem_cons]
    tauto

theorem deleteAll_valid (ys : List Int) (t : Node) (hv : Valid t) :
    ∃ t1, deleteAll ys t = some t1 ∧ Valid t1 ∧
      ∀ x, x ∈ traverseIn t1 ↔ x ∈ traverseIn t ∧ x ∉ ys := by
  induction ys generalizing t with
  | nil => exact ⟨t, rfl, hv, by simp⟩
  | cons v vs ih =>
    obtain ⟨t1, e1, v1⟩ := deleteNode_valid v t hv
    obtain ⟨t2, e2, v2, m2⟩ := ih t1 v1
    refine ⟨t2, by simp only [deleteAll, e1, e2], v2, ?_⟩
    intro x
    rw [m2, deleteNode_order v t t1 e1 hv.1, (traverseIn_nodup hv.1).mem_erase_iff]
    simp only [List.mem_cons, not_or]
    tauto

theorem applyOps_valid (ops : List Op) (t : Node) (hv : Valid t) :
    ∃ t1, applyOps ops t = some t1 ∧ Valid t1 ∧
      ∀ x, x ∈ traverseIn t1 ↔ x ∈ refSet ops (traverseIn t).toFinset := by
  induction ops generalizing t with
  | nil => exact ⟨t, rfl, hv, by simp [refSet]⟩
  | cons op ops ih =>
    cases op with
    | add v =>
      obtain ⟨t1, e1, v1⟩ := addNode_valid v t hv
      obtain ⟨t2, e2, v2, m2⟩ := ih t1 v1
      refine ⟨t2, by simp only [applyOps, e1, e2], v2, ?_⟩
      have hset : (traverseIn t1).toFinset = insert v (traverseIn t).toFinset := by
        ext x
        simp [(addNode_order v t t1 e1 hv.1).2.1]
      intro x
      rw [m2, hset, refSet]
    | del v =>
      obtain ⟨t1, e1, v1⟩ := deleteNode_valid v t hv
      obtain ⟨t2, e2, v2, m2⟩ := ih t1 v1
      refine ⟨t2, by simp only [applyOps, e1, e2], v2, ?_⟩
      have hset : (traverseIn t1).toFinset = (traverseIn t).toFinset.erase v := by
        ext x
        simp [deleteNode_order v t t1 e1 hv.1, (traverseIn_nodup hv.1).mem_erase_iff]
      intro x
      rw [m2, hset, refSet]

theorem sorted_eq_sort (l : List Int) (s : Finset Int) (hl : l.Pairwise (· < ·))
    (hm : ∀ x, x ∈ l ↔ x ∈ s) : l = s.sort (· ≤ ·) := by
  have hnd : l.Nodup := hl.imp (fun h => ne_of_lt h)
  have hperm : l.Perm (s.sort (· ≤ ·)) := by
    rw [List.perm_ext_iff_of_nodup hnd (Finset.sort_nodup _ _)]
    intro x
    rw [hm, Finset.mem_sort]
  exact List.eq_of_perm_of_sorted hperm (hl.imp (fun h => le_of_lt h)) (Finset.sort_sorted _ _)

/-! ## The claims -/

/-- C1: for every tree satisfying BST ordering, AVL balance and cached-height correctness
and every integer `v`, `addNode v` returns a tree that again satisfies the three
invariants; in particular the tree reached from the empty tree after each insert of any
sequence of inserts (every prefix of the sequence) satisfies them. -/
theorem addNode_preserves_invariants (t : Node) (v : Int) (h : Valid t) :
    (∃ t1, addNode v t = some t1 ∧ isBST t1 ∧ isBalanced t1 ∧ heightsCorrect t1) ∧
    (∀ xs ys : List Int, ys <+: xs →
      ∃ t2, insertAll ys .null = some t2 ∧ isBST t2 ∧ isBalanced t2 ∧ heightsCorrect t2) := by
  refine ⟨addNode_valid v t h, ?_⟩
  intro xs ys _
  obtain ⟨t2, e, v2, _⟩ := insertAll_valid ys .null valid_null
  exact ⟨t2, e, v2⟩

theorem addNode_preserves_invariants_witness :
    Valid sampleTree ∧
    ((∃ t1, addNode 2 sampleTree = some t1 ∧ isBST t1 ∧ isBalanced t1 ∧ heightsCorrect t1) ∧
    (∀ xs ys : List Int, ys <+: xs →
      ∃ t2, insertAll ys .null = some t2 ∧ isBST t2 ∧ isBalanced t2 ∧ heightsCorrect t2)) :=
  ⟨by decide, addNode_preserves_invariants sampleTree 2 (by decide)⟩

/-- C2: for every tree satisfying the three invariants and every integer `v`, present or
not, `deleteNode v` returns a tree (possibly the empty one) that again satisfies BST
ordering, AVL balance and cached-height correctness; the two-children case is included. -/
theorem deleteNode_preserves_invariants (t : Node) (v : Int) (h : Valid t) :
    ∃ t1, deleteNode v t = some t1 ∧ isBST t1 ∧ isBalanced t1 ∧ heightsCorrect t1 :=
  deleteNode_valid v t h

theorem deleteNode_preserves_invariants_witness :
    Valid sampleTree ∧
    ∃ t1, deleteNode 5 sampleTree = some t1 ∧ isBST t1 ∧ isBalanced t1 ∧ heightsCorrect t1 :=
  ⟨by decide, deleteNode_preserves_invariants sampleTree 5 (by decide)⟩

/-- C3: for every sequence of insert and delete commands applied in order from the empty
tree, the run succeeds, the in-order traversal of the resulting tree is strictly ascending
and it equals the sorted list of the reference set obtained by the same sequence of set
insertions and erasures; `A5 A3 A8 A1 A4` gives `1 3 4 5 8`. -/
theorem traverseIn_refines_set (ops : List Op) :
    (∃ t, applyOps ops .null = some t ∧ (traverseIn t).Sorted (· < ·) ∧
      traverseIn t = (refSet ops ∅).sort (· ≤ ·)) ∧
    (applyOps [.add 5, .add 3, .add 8, .add 1, .add 4] .null).map traverseIn
      = some [1, 3, 4, 5, 8] := by
  refine ⟨?_, by decide⟩
  obtain ⟨t, e, v, m⟩ := applyOps_valid ops .null valid_null
  have hs := (isBST_iff_sorted t).1 v.1
  refine ⟨t, e, hs, sorted_eq_sort _ _ hs ?_⟩
  intro x
  rw [m]
  simp [traverseIn]

/-- C4: for every tree satisfying the three invariants and every value `v` present in it,
`deleteNode v` returns a tree that no longer contains `v`, contains exactly the other
values of the old tree, has one node fewer, and whose in-order sequence is the old
in-order sequence with `v` removed. -/
theorem deleteNode_removes_value (t : Node) (v : Int) (h : Valid t)
    (hm : v ∈ traverseIn t) :
    ∃ t1, deleteNode v t = some t1 ∧ v ∉ traverseIn t1 ∧
      (∀ x, x ≠ v → (x ∈ traverseIn t1 ↔ x ∈ traverseIn t)) ∧
      size t1 + 1 = size t ∧ traverseIn t1 = (traverseIn t).erase v := by
  obtain ⟨t1, e, _⟩ := deleteNode_valid v t h
  have ho := deleteNode_order v t t1 e h.1
  have hnd := traverseIn_nodup h.1
  refine ⟨t1, e, ?_, ?_, ?_, ho⟩
  · rw [ho, hnd.mem_erase_iff]
    simp
  · intro x hx
    rw [ho, hnd.mem_erase_iff]
    simp [hx]
  · rw [size_eq_length, size_eq_length, ho, List.length_erase_of_mem hm]
    have hpos : 0 < (traverseIn t).length := List.length_pos_of_mem hm
    omega

theorem deleteNode_removes_value_witness :
    Valid sampleTree ∧ (3 : Int) ∈ traverseIn sampleTree ∧
    ∃ t1, deleteNode 3 sampleTree = some t1 ∧ (3 : Int) ∉ traverseIn t1 ∧
      (∀ x, x ≠ 3 → (x ∈ traverseIn t1 ↔ x ∈ traverseIn sampleTree)) ∧
      size t1 + 1 = size sampleTree ∧ traverseIn t1 = (traverseIn sampleTree).erase 3 :=
  ⟨by decide, by decide, deleteNode_removes_value sampleTree 3 (by decide) (by decide)⟩

/-- C5: for every tree satisfying the three invariants and every integer `v`, `addNode v`
returns a tree whose values are `v` and the values of the old tree and nothing else, and
whose node count is the old count plus one if `v` was absent and the old count if `v` was
present. -/
theorem addNode_contents (t : Node) (v : Int) (h : Valid t) :
    ∃ t1, addNode v t = some t1 ∧
      (∀ x, x ∈ traverseIn t1 ↔ x = v ∨ x ∈ traverseIn t) ∧
      size t1 = if v ∈ traverseIn t then size t else size t + 1 := by
  obtain ⟨t1, e, _⟩ := addNode_valid v t h
  exact ⟨t1, e, (addNode_order v t t1 e h.1).2⟩

theorem addNode_contents_witness :
    Valid sampleTree ∧
    ∃ t1, addNode 7 sampleTree = some t1 ∧
      (∀ x, x ∈ traverseIn t1 ↔ x = 7 ∨ x ∈ traverseIn sampleTree) ∧
      size t1 = if (7 : Int) ∈ traverseIn sampleTree then size sampleTree
        else size sampleTree + 1 :=
  ⟨by decide, addNode_contents sampleTree 7 (by decide)⟩

/-- C6: for every tree satisfying the three invariants and every value `v` already present
in it, `addNode v` returns the input tree itself (same shape, values and cached heights),
so the in-order traversal is unchanged. -/
theorem addNode_duplicate_noop (t : Node) (v : Int) (h : Valid t)
    (hm : v ∈ traverseIn t) :
    addNode v t = some t ∧ (addNode v t).map traverseIn = some (traverseIn t) := by
  have e := addNode_present v t h hm
  exact ⟨e, by rw [e]; rfl⟩

theorem addNode_duplicate_noop_witness :
    Valid sampleTree ∧ (4 : Int) ∈ traverseIn sampleTree ∧
    (addNode 4 sampleTree = some sampleTree ∧
      (addNode 4 sampleTree).map traverseIn = some (traverseIn sampleTree)) :=
  ⟨by decide, by decide, addNode_duplicate_noop sampleTree 4 (by decide) (by decide)⟩

/-- C7: for every tree satisfying the three invariants and every integer `v` not present
in it, `deleteNode v` returns the input tree itself (same shape, values and cached
heights). -/
theorem deleteNode_absent_noop (t : Node) (v : Int) (h : Valid t)
    (hm : v ∉ traverseIn t) :
    deleteNode v t = some t :=
  deleteNode_absent v t h hm

theorem deleteNode_absent_noop_witness :
    Valid sampleTree ∧ (6 : Int) ∉ traverseIn sampleTree ∧
    deleteNode 6 sampleTree = some sampleTree :=
  ⟨by decide, by decide, deleteNode_absent_noop sampleTree 6 (by decide) (by decide)⟩

/-- C8: for every list `xs` of integers and every list `ys` containing every value of
`xs`, inserting all of `xs` into the empty tree and then deleting all of `ys` succeeds and
leaves the empty tree (null root). -/
theorem insert_then_delete_all_empty (xs ys : List Int) (h : ∀ x ∈ xs, x ∈ ys) :
    ∃ t, insertAll xs .null = some t ∧ deleteAll ys t = some .null := by
  obtain ⟨t, e1, v1, m1⟩ := insertAll_valid xs .null valid_null
  obtain ⟨t2, e2, _, m2⟩ := deleteAll_valid ys t v1
  refine ⟨t, e1, ?_⟩
  rw [e2]
  congr 1
  apply traverseIn_eq_nil
  rw [List.eq_nil_iff_forall_not_mem]
  intro x hx
  obtain ⟨hx1, hx2⟩ := (m2 x).1 hx
  rcases (m1 x).1 hx1 with hx3 | hx3
  · exact hx2 (h x hx3)
  · simp [traverseIn] at hx3

theorem insert_then_delete_all_empty_witness :
    (∀ x ∈ [(5 : Int), 3, 8], x ∈ [(3 : Int), 8, 5]) ∧
    ∃ t, insertAll [5, 3, 8] .null = some t ∧ deleteAll [3, 8, 5] t = some .null :=
  ⟨by decide, insert_then_delete_all_empty [5, 3, 8] [3, 8, 5] (by decide)⟩

/-- C9: for three distinct integers `a < b < c` inserted into the empty tree in any of the
six possible orders, the resulting tree has the median `b` at the root, the minimum `a` as
its left leaf and the maximum `c` as its right leaf, so its pre-order traversal is
`b a c`; the ascending order `a b c` is the right-right case. -/
theorem three_inserts_median_root (a b c : Int) (hab : a < b) (hbc : b < c) :
    ∀ p ∈ [[a, b, c], [a, c, b], [b, a, c], [b, c, a], [c, a, b], [c, b, a]],
      insertAll p .null = some (.mk b (newNode a) (newNode c) 2) ∧
      (insertAll p .null).map traversePre = some [b, a, c] := by
  have hac : a < c := lt_trans hab hbc
  have n1 : ¬ b < a := by omega
  have n2 : ¬ c < b := by omega
  have n3 : ¬ c < a := by omega
  have key : ∀ p ∈ [[a, b, c], [a, c, b], [b, a, c], [b, c, a], [c, a, b], [c, b, a]],
      insertAll p .null = some (.mk b (newNode a) (newNode c) 2) := by
    intro p hp
    simp only [List.mem_cons, List.mem_singleton, List.not_mem_nil, or_false] at hp
    rcases hp with rfl | rfl | rfl | rfl | rfl | rfl <;>
      simp [insertAll, addNode, newNode, updateHeight_mk, rebalance, getBalanceFactor,
        getHeight, rotateLeft_mk, rotateRight_mk, hab, hbc, hac, n1, n2, n3]
  intro p hp
  refine ⟨key p hp, ?_⟩
  rw [key p hp]
  rfl

theorem three_inserts_median_root_witness :
    (1 : Int) < 2 ∧ (2 : Int) < 3 ∧
    ∀ p ∈ [[(1 : Int), 2, 3], [1, 3, 2], [2, 1, 3], [2, 3, 1], [3, 1, 2], [3, 2, 1]],
      insertAll p .null = some (.mk 2 (newNode 1) (newNode 3) 2) ∧
      (insertAll p .null).map traversePre = some [2, 1, 3] :=
  ⟨by decide, by decide, three_inserts_median_root 1 2 3 (by decide) (by decide)⟩

/-! ## The command loop -/

/-- A run of the command loop over mutation tokens prints nothing and does not leave the
loop: the loop continues with the following tokens from the root it reached. -/
theorem mainLoop_mutations (pre : List String) (root r : Node) (out o : String)
    (hpre : ∀ op ∈ pre, isMutation op = true)
    (hrun : mainLoop pre root out = some (r, o)) :
    o = out ∧ ∀ rest, mainLoop (pre ++ rest) root out = mainLoop rest r out := by
  induction pre generalizing root with
  | nil =>
    simp only [mainLoop, Option.some.injEq, Prod.mk.injEq] at hrun
    obtain ⟨rfl, rfl⟩ := hrun
    exact ⟨rfl, fun _ => rfl⟩
  | cons op ops ih =>
    have hop := hpre op (List.mem_cons_self _ _)
    have hops : ∀ x ∈ ops, isMutation x = true := fun x hx => hpre x (List.mem_cons_of_mem _ hx)
    unfold isMutation at hop
    rw [mainLoop] at hrun
    simp only [List.cons_append]
    split at hrun
    · rename_i sub hd
      cases hs : stoi sub with
      | none => simp [hs] at hrun
      | some val =>
        cases ha : addNode val root with
        | none => simp [hs, ha] at hrun
        | some root1 =>
          simp only [hs, ha] at hrun
          obtain ⟨h1, h2⟩ := ih root1 hops hrun
          refine ⟨h1, fun rest => ?_⟩
          rw [mainLoop]
          simp only [hd, hs, ha]
          exact h2 rest
    · rename_i sub hd
      cases hs : stoi sub with
      | none => simp [hs] at hrun
      | some val =>
        cases ha : deleteNode val root with
        | none => simp [hs, ha] at hrun
        | some root1 =>
          simp only [hs, ha] at hrun
          obtain ⟨h1, h2⟩ := ih root1 hops hrun
          refine ⟨h1, fun rest => ?_⟩
          rw [mainLoop]
          simp only [hd, hs, ha]
          exact h2 rest
    · rename_i hA hD
      exfalso
      split at hop
      · rename_i sub hd
        exact hA sub hd
      · rename_i sub hd
        exact hD sub hd
      · exact Bool.false_ne_true hop

/-- C10: on every command line whose tokens before the first traversal command (`PRE`,
`POST` or `IN`) are mutation commands that leave the tree empty, the program prints
exactly `EMPTY` followed by the final newline, whatever tokens follow the traversal
command; `A10 D10 IN` prints `EMPTY`. -/
theorem empty_tree_prints_EMPTY (pre post : List String) (t o : String)
    (hpre : ∀ op ∈ pre, isMutation op = true)
    (hrun : mainLoop pre .null "" = some (.null, o))
    (ht : t = "PRE" ∨ t = "POST" ∨ t = "IN") :
    mainTokens (pre ++ t :: post) = some "EMPTY\n" ∧
    main "A10 D10 IN" = some "EMPTY\n" := by
  refine ⟨?_, by decide⟩
  obtain ⟨_, h2⟩ := mainLoop_mutations pre .null .null "" o hpre hrun
  unfold mainTokens
  rw [h2 (t :: post)]
  rcases ht with rfl | rfl | rfl <;> rfl

theorem empty_tree_prints_EMPTY_witness :
    (∀ op ∈ ["A10", "D10"], isMutation op = true) ∧
    mainLoop ["A10", "D10"] .null "" = some (.null, "") ∧
    ("IN" = "PRE" ∨ "IN" = "POST" ∨ "IN" = "IN") ∧
    (mainTokens (["A10", "D10"] ++ "IN" :: ["A7", "PRE"]) = some "EMPTY\n" ∧
      main "A10 D10 IN" = some "EMPTY\n") :=
  ⟨by decide, by decide, by decide,
    empty_tree_prints_EMPTY ["A10", "D10"] ["A7", "PRE"] "IN" "" (by decide) (by decide)
      (by decide)⟩

/-! ## Rotations and the rebalance step -/

/-- C14: for every node with a non-null right child, `rotateLeft` returns the former right
child as the root of the subtree (with the old node as its left child) and the in-order
sequence is unchanged, hence BST ordering is preserved; symmetrically `rotateRight` on a
node with a non-null left child returns the former left child and preserves the in-order
sequence. -/
theorem rotations_preserve_inorder (v w : Int) (a b c : Node) (h k : Int) :
    (∃ h1 h2, rotateLeft (.mk v a (.mk w b c k) h) = some (.mk w (.mk v a b h1) c h2) ∧
      traverseIn (.mk w (.mk v a b h1) c h2) = traverseIn (.mk v a (.mk w b c k) h) ∧
      (isBST (.mk v a (.mk w b c k) h) → isBST (.mk w (.mk v a b h1) c h2))) ∧
    (∃ h1 h2, rotateRight (.mk v (.mk w a b k) c h) = some (.mk w a (.mk v b c h1) h2) ∧
      traverseIn (.mk w a (.mk v b c h1) h2) = traverseIn (.mk v (.mk w a b k) c h) ∧
      (isBST (.mk v (.mk w a b k) c h) → isBST (.mk w a (.mk v b c h1) h2))) := by
  constructor
  · refine ⟨_, _, rotateLeft_mk v a w b c k h, ?_⟩
    have e := rotateLeft_traverseIn (rotateLeft_mk v a w b c k h)
    refine ⟨e, fun hb => ?_⟩
    rw [isBST_iff_sorted] at hb ⊢
    rw [e]
    exact hb
  · refine ⟨_, _, rotateRight_mk v w a b k c h, ?_⟩
    have e := rotateRight_traverseIn (rotateRight_mk v w a b k c h)
    refine ⟨e, fun hb => ?_⟩
    rw [isBST_iff_sorted] at hb ⊢
    rw [e]
    exact hb

/-- C20: the two rotations are mutually inverse: for a node with a non-null right child
whose cached height and whose right child's cached height agree with the cached heights
of their children, `rotateRight` after `rotateLeft` gives back the node (shape, values and
cached heights); symmetrically `rotateLeft` after `rotateRight` for a node with a non-null
left child. -/
theorem rotations_inverse (v w : Int) (a b c : Node) (h k h2 k2 : Int)
    (hk : k = max (getHeight b) (getHeight c) + 1)
    (hh : h = max (getHeight a) (getHeight (.mk w b c k)) + 1)
    (hk2 : k2 = max (getHeight a) (getHeight b) + 1)
    (hh2 : h2 = max (getHeight (.mk w a b k2)) (getHeight c) + 1) :
    (rotateLeft (.mk v a (.mk w b c k) h)).bind rotateRight
        = some (.mk v a (.mk w b c k) h) ∧
    (rotateRight (.mk v (.mk w a b k2) c h2)).bind rotateLeft
        = some (.mk v (.mk w a b k2) c h2) := by
  rw [getHeight_mk] at hh hh2
  constructor
  · rw [rotateLeft_mk, Option.some_bind, rotateRight_mk, ← hk, ← hh]
  · rw [rotateRight_mk, Option.some_bind, rotateLeft_mk, ← hk2, ← hh2]

theorem rotations_inverse_witness :
    (rotateLeft (.mk 5 (newNode 3) (.mk 8 (newNode 6) (newNode 9) 2) 3)).bind rotateRight
        = some (.mk 5 (newNode 3) (.mk 8 (newNode 6) (newNode 9) 2) 3) ∧
    (rotateRight (.mk 5 (.mk 8 (newNode 3) (newNode 6) 2) (newNode 9) 3)).bind rotateLeft
        = some (.mk 5 (.mk 8 (newNode 3) (newNode 6) 2) (newNode 9) 3) :=
  rotations_inverse 5 8 (newNode 3) (newNode 6) (newNode 9) 3 2 3 2
    (by decide) (by decide) (by decide) (by decide)

/-- C13: for every node whose two subtrees satisfy the three invariants, whose value lies
strictly between all left and all right values, whose cached height is correct and whose
children's heights differ by at most 2, `rebalance` returns a tree that satisfies the
three invariants and has the same in-order sequence; in the tie case (out of balance by 2,
taller child with balance factor 0) the non-strict tests select a single rotation. -/
theorem rebalance_restores_invariants (v : Int) (l r : Node) (c : Int)
    (hl : Valid l) (hr : Valid r)
    (hlt : ∀ x ∈ traverseIn l, x < v) (hgt : ∀ x ∈ traverseIn r, v < x)
    (hc : c = (height (.mk v l r c) : Int))
    (h1 : height l ≤ height r + 2) (h2 : height r ≤ height l + 2) :
    (∃ t1, rebalance (.mk v l r c) = some t1 ∧
      isBST t1 ∧ isBalanced t1 ∧ heightsCorrect t1 ∧
      traverseIn t1 = traverseIn (.mk v l r c)) ∧
    (height l = height r + 2 → getBalanceFactor l = 0 →
      rebalance (.mk v l r c) = rotateRight (.mk v l r c)) ∧
    (height r = height l + 2 → getBalanceFactor r = 0 →
      rebalance (.mk v l r c) = rotateLeft (.mk v l r c)) := by
  have el := getHeight_eq hl.2.2
  have er := getHeight_eq hr.2.2
  have hc1 : c = max (getHeight l) (getHeight r) + 1 := by
    rw [hc, el, er]
    simp only [height]
    omega
  obtain ⟨t1, e, c1, b1, _, _, _⟩ :=
    rebalance_heights v l r c hl.2.2 hr.2.2 hl.2.1 hr.2.1 h1 h2 hc1
  refine ⟨⟨t1, e, rebalance_isBST e ⟨hl.1, hr.1, hlt, hgt⟩, b1, c1,
    rebalance_traverseIn e⟩, ?_, ?_⟩
  · intro hd hb
    unfold rebalance
    simp only [getBalanceFactor_mk, el, er]
    rw [if_pos (by omega), if_pos (by omega)]
  · intro hd hb
    unfold rebalance
    simp only [getBalanceFactor_mk, el, er]
    rw [if_neg (by omega), if_pos (by omega), if_pos (by omega)]

theorem rebalance_restores_invariants_witness :
    (∃ t1, rebalance (.mk 5 (.mk 3 (newNode 1) (newNode 4) 2) .null 3) = some t1 ∧
      isBST t1 ∧ isBalanced t1 ∧ heightsCorrect t1 ∧
      traverseIn t1 = traverseIn (.mk 5 (.mk 3 (newNode 1) (newNode 4) 2) .null 3)) ∧
    (height (.mk 3 (newNode 1) (newNode 4) 2) = height .null + 2 →
      getBalanceFactor (.mk 3 (newNode 1) (newNode 4) 2) = 0 →
      rebalance (.mk 5 (.mk 3 (newNode 1) (newNode 4) 2) .null 3)
        = rotateRight (.mk 5 (.mk 3 (newNode 1) (newNode 4) 2) .null 3)) ∧
    (height .null = height (.mk 3 (newNode 1) (newNode 4) 2) + 2 →
      getBalanceFactor .null = 0 →
      rebalance (.mk 5 (.mk 3 (newNode 1) (newNode 4) 2) .null 3)
        = rotateLeft (.mk 5 (.mk 3 (newNode 1) (newNode 4) 2) .null 3)) :=
  rebalance_restores_invariants 5 (.mk 3 (newNode 1) (newNode 4) 2) .null 3
    (by decide) (by decide) (by decide) (by decide) (by decide) (by decide) (by decide)

/-- C19: for every tree satisfying the three invariants and every integer `v`, one
mutation changes the height by at most one: the height after `addNode` is the old height
or the old height plus one, and the height after `deleteNode` is the old height or the old
height minus one; the cached height of the result is its height. -/
theorem mutation_changes_height_by_one (t : Node) (v : Int) (h : Valid t) :
    (∃ t1, addNode v t = some t1 ∧ getHeight t1 = (height t1 : Int) ∧
      (height t1 = height t ∨ height t1 = height t + 1)) ∧
    (∃ t2, deleteNode v t = some t2 ∧ getHeight t2 = (height t2 : Int) ∧
      (height t2 = height t ∨ height t2 + 1 = height t)) := by
  obtain ⟨t1, e1, c1, _, lo1, hi1⟩ := addNode_heights v t h.2.2 h.2.1
  obtain ⟨t2, e2, c2, _, lo2, hi2⟩ := deleteNode_heights v t h.2.2 h.2.1
  exact ⟨⟨t1, e1, getHeight_eq c1, by omega⟩, ⟨t2, e2, getHeight_eq c2, by omega⟩⟩

theorem mutation_changes_height_by_one_witness :
    Valid sampleTree ∧
    ((∃ t1, addNode 8 sampleTree = some t1 ∧ getHeight t1 = (height t1 : Int) ∧
      (height t1 = height sampleTree ∨ height t1 = height sampleTree + 1)) ∧
    (∃ t2, deleteNode 8 sampleTree = some t2 ∧ getHeight t2 = (height t2 : Int) ∧
      (height t2 = height sampleTree ∨ height t2 + 1 = height sampleTree))) :=
  ⟨by decide, mutation_changes_height_by_one sampleTree 8 (by decide)⟩

theorem getHeight_nonneg {t : Node} (h : heightsCorrect t) : 0 ≤ getHeight t := by
  rw [getHeight_eq h]
  exact Int.ofNat_nonneg _

theorem rotateLeft_eq_none_iff (t : Node) :
    rotateLeft t = none ↔ ∀ v l w b c k h, t ≠ .mk v l (.mk w b c k) h := by
  constructor
  · intro hn v l w b c k h ht
    rw [ht, rotateLeft_mk] at hn
    exact Option.noConfusion hn
  · intro hn
    rcases t with _ | ⟨v, l, r, h⟩
    · rfl
    · rcases r with _ | ⟨w, b, c, k⟩
      · rfl
      · exact absurd rfl (hn v l w b c k h)

theorem rotateRight_eq_none_iff (t : Node) :
    rotateRight t = none ↔ ∀ v w a b k r h, t ≠ .mk v (.mk w a b k) r h := by
  constructor
  · intro hn v w a b k r h ht
    rw [ht, rotateRight_mk] at hn
    exact Option.noConfusion hn
  · intro hn
    rcases t with _ | ⟨v, l, r, h⟩
    · rfl
    · rcases l with _ | ⟨w, a, b, k⟩
      · rfl
      · exact absurd rfl (hn v w a b k r h)

/-- C15: on every tree whose cached heights are correct, `rebalance` never breaks a
rotation precondition: it returns a tree (no null child is dereferenced); when it takes the
left-heavy branch the left child is non-null, and in the left-right case the left child's
right child is non-null; symmetrically for the right-heavy branch; the rotations fail
exactly on a node without the child they promote. -/
theorem rebalance_rotation_preconditions (t : Node) (h : heightsCorrect t) :
    (∃ t1, rebalance t = some t1) ∧
    (∀ v l r c, t = .mk v l r c →
      (getBalanceFactor t > 1 →
        ∃ w a b k, l = .mk w a b k ∧ (¬ getBalanceFactor l ≥ 0 → b ≠ .null)) ∧
      (getBalanceFactor t < -1 →
        ∃ w a b k, r = .mk w a b k ∧ (¬ getBalanceFactor r ≤ 0 → a ≠ .null))) ∧
    (∀ n, rotateLeft n = none ↔ ∀ v l w b c k h, n ≠ .mk v l (.mk w b c k) h) ∧
    (∀ n, rotateRight n = none ↔ ∀ v w a b k r h, n ≠ .mk v (.mk w a b k) r h) := by
  refine ⟨?_, ?_, rotateLeft_eq_none_iff, rotateRight_eq_none_iff⟩
  · rcases t with _ | ⟨v, l, r, c⟩
    · exact ⟨.null, rfl⟩
    · obtain ⟨hl, hr, _⟩ := h
      have nl := getHeight_nonneg hl
      have nr := getHeight_nonneg hr
      unfold rebalance
      simp only [getBalanceFactor_mk]
      split_ifs with h1 h2 h3 h4
      · rcases l with _ | ⟨w, a, b, k⟩
        · rw [getHeight_null] at h1; omega
        · exact ⟨_, rotateRight_mk v w a b k r c⟩
      · rcases l with _ | ⟨w, a, b, k⟩
        · rw [getHeight_null] at h1; omega
        · have na := getHeight_nonneg hl.1
          rw [getBalanceFactor_mk] at h2
          rcases b with _ | ⟨w2, b1, b2, k2⟩
          · rw [getHeight_null] at h2; omega
          · rw [rotateLeft_mk]
            exact ⟨_, rotateRight_mk _ _ _ _ _ _ _⟩
      · rcases r with _ | ⟨w, a, b, k⟩
        · rw [getHeight_null] at h3; omega
        · exact ⟨_, rotateLeft_mk v l w a b k c⟩
      · rcases r with _ | ⟨w, a, b, k⟩
        · rw [getHeight_null] at h3; omega
        · have nb := getHeight_nonneg hr.2.1
          rw [getBalanceFactor_mk] at h4
          rcases a with _ | ⟨w2, a1, a2, k2⟩
          · rw [getHeight_null] at h4; omega
          · rw [rotateRight_mk]
            exact ⟨_, rotateLeft_mk _ _ _ _ _ _ _⟩
      · exact ⟨_, rfl⟩
  · intro v l r c ht
    subst ht
    obtain ⟨hl, hr, _⟩ := h
    have nl := getHeight_nonneg hl
    have nr := getHeight_nonneg hr
    rw [getBalanceFactor_mk]
    constructor
    · intro h1
      rcases l with _ | ⟨w, a, b, k⟩
      · rw [getHeight_null] at h1; omega
      · refine ⟨w, a, b, k, rfl, ?_⟩
        intro h2 hb
        have na := getHeight_nonneg hl.1
        rw [getBalanceFactor_mk, hb, getHeight_null] at h2
        omega
    · intro h3
      rcases r with _ | ⟨w, a, b, k⟩
      · rw [getHeight_null] at h3; omega
      · refine ⟨w, a, b, k, rfl, ?_⟩
        intro h4 ha
        have nb := getHeight_nonneg hr.2.1
        rw [getBalanceFactor_mk, ha, getHeight_null] at h4
        omega

theorem rebalance_rotation_preconditions_witness :
    (∃ t1, rebalance (.mk 5 (.mk 3 .null (newNode 4) 2) .null 3) = some t1) ∧
    (∀ v l r c, Node.mk 5 (.mk 3 .null (newNode 4) 2) .null 3 = .mk v l r c →
      (getBalanceFactor (.mk 5 (.mk 3 .null (newNode 4) 2) .null 3) > 1 →
        ∃ w a b k, l = .mk w a b k ∧ (¬ getBalanceFactor l ≥ 0 → b ≠ .null)) ∧
      (getBalanceFactor (.mk 5 (.mk 3 .null (newNode 4) 2) .null 3) < -1 →
        ∃ w a b k, r = .mk w a b k ∧ (¬ getBalanceFactor r ≤ 0 → a ≠ .null))) ∧
    (∀ n, rotateLeft n = none ↔ ∀ v l w b c k h, n ≠ .mk v l (.mk w b c k) h) ∧
    (∀ n, rotateRight n = none ↔ ∀ v w a b k r h, n ≠ .mk v (.mk w a b k) r h) :=
  rebalance_rotation_preconditions (.mk 5 (.mk 3 .null (newNode 4) 2) .null 3) (by decide)

/-! ## Height bound and recursion depth -/

theorem size_lower_bound (t : Node) (hb : isBalanced t) :
    2 ^ ((height t + 1) / 2) ≤ size t + 1 := by
  induction t with
  | null => simp [height, size]
  | mk v l r c ihl ihr =>
    obtain ⟨bl, br, b1, b2⟩ := hb
    have il := ihl bl
    have ir := ihr br
    have e1 : 2 ^ (max (height l) (height r) / 2) ≤ 2 ^ ((height l + 1) / 2) :=
      Nat.pow_le_pow_right (by norm_num) (by omega)
    have e2 : 2 ^ (max (height l) (height r) / 2) ≤ 2 ^ ((height r + 1) / 2) :=
      Nat.pow_le_pow_right (by norm_num) (by omega)
    have hexp : (height (.mk v l r c) + 1) / 2 = max (height l) (height r) / 2 + 1 := by
      simp only [height]
      omega
    rw [hexp, pow_succ]
    simp only [size]
    omega

theorem addNodeDepth_le (val : Int) (t : Node) : addNodeDepth val t ≤ height t + 1 := by
  induction t with
  | null => simp [addNodeDepth, height]
  | mk v l r c ihl ihr =>
    unfold addNodeDepth
    simp only [height]
    split_ifs <;> omega

theorem deleteNodeDepth_le (val : Int) (t : Node) : deleteNodeDepth val t ≤ height t + 1 := by
  induction t generalizing val with
  | null => simp [deleteNodeDepth, height]
  | mk v l r c ihl ihr =>
    unfold deleteNodeDepth
    simp only [height]
    split_ifs
    · have := ihr val; omega
    · have := ihl val; omega
    · omega
    · omega
    · omega
    · split
      · omega
      · rename_i m _
        have := ihl m
        omega

/-- C16: for every tree satisfying AVL balance and cached-height correctness, with `n`
nodes and height `h` (also its cached height, 0 for the empty tree), `2^h ≤ (n + 1)^2`,
that is `h ≤ 2 * log2 (n + 1)`; hence a call of `addNode` or `deleteNode` on it nests at
most `2 * log2 (n + 1) + 1` activations. -/
theorem height_logarithmic (t : Node) (hb : isBalanced t) (hc : heightsCorrect t) :
    getHeight t = (height t : Int) ∧
    2 ^ height t ≤ (size t + 1) ^ 2 ∧
    height t ≤ 2 * Nat.log 2 (size t + 1) ∧
    ∀ v, addNodeDepth v t ≤ 2 * Nat.log 2 (size t + 1) + 1 ∧
      deleteNodeDepth v t ≤ 2 * Nat.log 2 (size t + 1) + 1 := by
  have hs := size_lower_bound t hb
  have hlog : (height t + 1) / 2 ≤ Nat.log 2 (size t + 1) :=
    Nat.le_log_of_pow_le (by norm_num) hs
  have hh : height t ≤ 2 * Nat.log 2 (size t + 1) := by omega
  refine ⟨getHeight_eq hc, ?_, hh, fun v => ⟨?_, ?_⟩⟩
  · calc 2 ^ height t ≤ 2 ^ (((height t + 1) / 2) * 2) :=
          Nat.pow_le_pow_right (by norm_num) (by omega)
      _ = (2 ^ ((height t + 1) / 2)) ^ 2 := by rw [pow_mul]
      _ ≤ (size t + 1) ^ 2 := Nat.pow_le_pow_left hs 2
  · have := addNodeDepth_le v t
    omega
  · have := deleteNodeDepth_le v t
    omega

theorem height_logarithmic_witness :
    getHeight sampleTree = (height sampleTree : Int) ∧
    2 ^ height sampleTree ≤ (size sampleTree + 1) ^ 2 ∧
    height sampleTree ≤ 2 * Nat.log 2 (size sampleTree + 1) ∧
    ∀ v, addNodeDepth v sampleTree ≤ 2 * Nat.log 2 (size sampleTree + 1) + 1 ∧
      deleteNodeDepth v sampleTree ≤ 2 * Nat.log 2 (size sampleTree + 1) + 1 :=
  height_logarithmic sampleTree (by decide) (by decide)

/-! ## The in-order predecessor -/

theorem findMaxNode_shape (t : Node) (h : t ≠ .null) :
    ∃ m ml mh init, findMaxNode t = .mk m ml .null mh ∧ traverseIn t = init ++ [m] := by
  induction t with
  | null => exact absurd rfl h
  | mk v l r c _ ihr =>
    rcases r with _ | ⟨rv, rl, rr, rh⟩
    · exact ⟨v, l, c, traverseIn l, rfl, by simp [traverseIn]⟩
    · obtain ⟨m, ml, mh, init, hm, hi⟩ := ihr (by simp)
      refine ⟨m, ml, mh, traverseIn l ++ v :: init, by simpa [findMaxNode] using hm, ?_⟩
      rw [traverseIn, hi]
      simp

/-- C17: for every non-empty tree satisfying BST ordering, `findMaxNode` returns a node
without right child whose value is the last element of the in-order sequence and the
maximum of the tree; consequently, when the tree is the left subtree of a node with two
children whose value is deleted, the value written into that node is the in-order
predecessor of the deleted value, and the recursive `deleteNode` on the left subtree
removes exactly that value. -/
theorem findMaxNode_is_predecessor (t : Node) (hne : t ≠ .null) (hb : isBST t) :
    (∃ m ml mh, findMaxNode t = .mk m ml .null mh ∧
      (traverseIn t).getLast? = some m ∧ m ∈ traverseIn t ∧ ∀ x ∈ traverseIn t, x ≤ m) ∧
    (∀ v r c, r ≠ .null → isBST (.mk v t r c) →
      ∃ m, getVal (findMaxNode t) = some m ∧ m ∈ traverseIn t ∧ m < v ∧
        (∀ x ∈ traverseIn (.mk v t r c), x < v → x ≤ m) ∧
        deleteNode v (.mk v t r c) =
          (deleteNode m t).bind (fun l1 => (updateHeight (.mk m l1 r c)).bind rebalance) ∧
        ∀ l1, deleteNode m t = some l1 → traverseIn l1 = (traverseIn t).erase m) := by
  obtain ⟨m, ml, mh, init, hm, hi⟩ := findMaxNode_shape t hne
  have hs := (isBST_iff_sorted t).1 hb
  rw [hi, List.pairwise_append] at hs
  have hmem : m ∈ traverseIn t := by rw [hi]; simp
  have hmax : ∀ x ∈ traverseIn t, x ≤ m := by
    intro x hx
    rw [hi, List.mem_append, List.mem_singleton] at hx
    rcases hx with hx | rfl
    · exact le_of_lt (hs.2.2 x hx m (List.mem_singleton_self m))
    · exact le_refl _
  refine ⟨⟨m, ml, mh, hm, by rw [hi]; simp, hmem, hmax⟩, ?_⟩
  intro v r c hr hbv
  obtain ⟨_, _, hlt, hgt⟩ := hbv
  refine ⟨m, by rw [hm]; rfl, hmem, hlt m hmem, ?_, ?_, ?_⟩
  · intro x hx hxv
    simp only [traverseIn, List.mem_append, List.mem_cons] at hx
    rcases hx with hx | rfl | hx
    · exact hmax x hx
    · exact absurd hxv (lt_irrefl _)
    · exact absurd (hgt x hx) (by omega)
  · rw [deleteNode, if_neg (lt_irrefl v), if_neg (lt_irrefl v), if_neg (fun h => hne h.1),
      if_neg (fun h => hr h.2), if_neg (fun h => hne h.1), hm]
    simp only [getVal]
    cases deleteNode m t with
    | none => rfl
    | some l1 => simp only [updateHeight_mk, Option.some_bind]
  · intro l1 hl1
    exact deleteNode_order m t l1 hl1 hb

theorem findMaxNode_is_predecessor_witness :
    (.mk 3 (newNode 1) (newNode 4) 2 : Node) ≠ .null ∧
    isBST (.mk 3 (newNode 1) (newNode 4) 2) ∧
    ((∃ m ml mh, findMaxNode (.mk 3 (newNode 1) (newNode 4) 2) = .mk m ml .null mh ∧
      (traverseIn (.mk 3 (newNode 1) (newNode 4) 2)).getLast? = some m ∧
      m ∈ traverseIn (.mk 3 (newNode 1) (newNode 4) 2) ∧
      ∀ x ∈ traverseIn (.mk 3 (newNode 1) (newNode 4) 2), x ≤ m) ∧
    (∀ v r c, r ≠ .null → isBST (.mk v (.mk 3 (newNode 1) (newNode 4) 2) r c) →
      ∃ m, getVal (findMaxNode (.mk 3 (newNode 1) (newNode 4) 2)) = some m ∧
        m ∈ traverseIn (.mk 3 (newNode 1) (newNode 4) 2) ∧ m < v ∧
        (∀ x ∈ traverseIn (.mk v (.mk 3 (newNode 1) (newNode 4) 2) r c), x < v → x ≤ m) ∧
        deleteNode v (.mk v (.mk 3 (newNode 1) (newNode 4) 2) r c) =
          (deleteNode m (.mk 3 (newNode 1) (newNode 4) 2)).bind
            (fun l1 => (updateHeight (.mk m l1 r c)).bind rebalance) ∧
        ∀ l1, deleteNode m (.mk 3 (newNode 1) (newNode 4) 2) = some l1 →
          traverseIn l1 = (traverseIn (.mk 3 (newNode 1) (newNode 4) 2)).erase m)) :=
  ⟨by decide, by decide,
    findMaxNode_is_predecessor (.mk 3 (newNode 1) (newNode 4) 2) (by decide) (by decide)⟩

/-! ## Traversal commands, unknown tokens and the teardown -/

/-- A run of the command loop that ends with a non-empty tree went through all its tokens
(the loop is only left early with an empty tree), so the loop continues with the following
tokens from the root and the output it reached. -/
theorem mainLoop_append (pre : List String) (root r : Node) (out o : String)
    (hrun : mainLoop pre root out = some (r, o)) (hr : r ≠ .null) (rest : List String) :
    mainLoop (pre ++ rest) root out = mainLoop rest r o := by
  induction pre generalizing root out with
  | nil =>
    simp only [mainLoop, Option.some.injEq, Prod.mk.injEq] at hrun
    obtain ⟨rfl, rfl⟩ := hrun
    rfl
  | cons op ops ih =>
    rw [mainLoop] at hrun
    simp only [List.cons_append]
    rw [mainLoop]
    split at hrun
    · rename_i sub hd
      cases hs : stoi sub with
      | none => simp [hs] at hrun
      | some val =>
        cases ha : addNode val root with
        | none => simp [hs, ha] at hrun
        | some root1 =>
          simp only [hs, ha] at hrun
          simp only [hd, hs, ha]
          exact ih root1 out hrun
    · rename_i sub hd
      cases hs : stoi sub with
      | none => simp [hs] at hrun
      | some val =>
        cases ha : deleteNode val root with
        | none => simp [hs, ha] at hrun
        | some root1 =>
          simp only [hs, ha] at hrun
          simp only [hd, hs, ha]
          exact ih root1 out hrun
    · split_ifs at hrun with h0 h1 h2 h3
      · simp only [Option.some.injEq, Prod.mk.injEq] at hrun
        exact absurd (hrun.1.symm.trans h0) hr
      · rw [if_neg h0, if_pos h1]
        exact ih root _ hrun
      · rw [if_neg h0, if_neg h1, if_pos h2]
        exact ih root _ hrun
      · rw [if_neg h0, if_neg h1, if_neg h2, if_pos h3]
        exact ih root _ hrun
      · rw [if_neg h0, if_neg h1, if_neg h2, if_neg h3]
        exact ih root _ hrun

theorem mainLoop_unknown (tok : String) (post : List String) (r : Node) (o : String)
    (htok : isMutation tok = false)
    (hne : tok ≠ "PRE" ∧ tok ≠ "POST" ∧ tok ≠ "IN") (hr : r ≠ .null) :
    mainLoop (tok :: post) r o = mainLoop post r o := by
  unfold isMutation at htok
  rw [mainLoop]
  split
  · rename_i sub hd
    simp [hd] at htok
  · rename_i sub hd
    simp [hd] at htok
  · rw [if_neg hr, if_neg hne.1, if_neg hne.2.1, if_neg hne.2.2]

/-- C11 (what the code does): a traversal command does not end the run when the tree is
non-empty.  On `A1 PRE A2 IN` the program prints the pre-order traversal, then inserts 2
and prints the in-order traversal, while on the line cut after `PRE` it prints `1 ` only. -/
theorem traversal_does_not_stop_the_run :
    main "A1 PRE A2 IN" = some "1 1 2 \n" ∧ main "A1 PRE" = some "1 \n" ∧
    main "A1 PRE A2 IN" ≠ main "A1 PRE" := by
  decide

/-- C12 (the claim as stated fails): the unknown token `X` reached with an empty tree
prints `EMPTY` and ends the run, so removing it changes the output; and a token that
starts with `A` without being `A<int>` is not ignored either: `A2x` inserts 2 and `Ax`
ends the program abnormally. -/
theorem unknown_token_not_always_ignored :
    main "X A1 IN" = some "EMPTY\n" ∧ main "A1 IN" = some "1 \n" ∧
    main "X A1 IN" ≠ main "A1 IN" ∧
    main "A1 A2x IN" = some "1 2 \n" ∧ main "A1 Ax IN" = none := by
  decide

/-- C12 (amended): a token whose first character is neither `A` nor `D` and that is not
`PRE`, `POST` or `IN`, reached while the tree is non-empty, is silently ignored: the loop
continues with the next token from the same tree and the same output, so removing the
token from the line leaves the program's output unchanged. -/
theorem unknown_token_ignored_on_nonempty_tree (pre post : List String) (tok : String)
    (r : Node) (o : String)
    (htok : isMutation tok = false)
    (hne : tok ≠ "PRE" ∧ tok ≠ "POST" ∧ tok ≠ "IN")
    (hrun : mainLoop pre .null "" = some (r, o)) (hr : r ≠ .null) :
    mainLoop (tok :: post) r o = mainLoop post r o ∧
    mainTokens (pre ++ tok :: post) = mainTokens (pre ++ post) := by
  have step := mainLoop_unknown tok post r o htok hne hr
  refine ⟨step, ?_⟩
  unfold mainTokens
  rw [mainLoop_append pre .null r "" o hrun hr (tok :: post),
    mainLoop_append pre .null r "" o hrun hr post, step]

theorem unknown_token_ignored_on_nonempty_tree_witness :
    isMutation "XYZ" = false ∧ ("XYZ" ≠ "PRE" ∧ "XYZ" ≠ "POST" ∧ "XYZ" ≠ "IN") ∧
    mainLoop ["A1", "PRE"] .null "" = some (newNode 1, "1 ") ∧ newNode 1 ≠ .null ∧
    (mainLoop ("XYZ" :: ["A2", "IN"]) (newNode 1) "1 " = mainLoop ["A2", "IN"] (newNode 1) "1 " ∧
    mainTokens (["A1", "PRE"] ++ "XYZ" :: ["A2", "IN"])
      = mainTokens (["A1", "PRE"] ++ ["A2", "IN"])) :=
  ⟨by decide, by decide, by decide, by decide,
    unknown_token_ignored_on_nonempty_tree ["A1", "PRE"] ["A2", "IN"] "XYZ" (newNode 1) "1 "
      (by decide) (by decide) (by decide) (by decide)⟩

/-- C18 (what the code does): `deleteTree` releases only the nodes without children.  On
the tree built by `A1 A2` (root 1 with the right child 2) it releases the node 2 and never
the root, so the released nodes are not a permutation of the nodes of the tree. -/
theorem deleteTree_releases_only_leaves :
    insertAll [1, 2] .null = some (.mk 1 .null (newNode 2) 2) ∧
    deleteTree (.mk 1 .null (newNode 2) 2) = [newNode 2] ∧
    allNodes (.mk 1 .null (newNode 2) 2) = [newNode 2, .mk 1 .null (newNode 2) 2] ∧
    ¬ (deleteTree (.mk 1 .null (newNode 2) 2)).Perm (allNodes (.mk 1 .null (newNode 2) 2)) := by
  refine ⟨by decide, by decide, by decide, fun h => ?_⟩
  have hlen := h.length_eq
  revert hlen
  decide

end AVL
